import Mathlib

/-!
Shallow embedding of `factor.py`, a small number-theory toolkit offering
interchangeable primality tests (Miller-Rabin, a Baillie-PSW-style test,
a delegate to an external exact primality routine) and factorization
strategies (brute-force trial division, Pollard's rho), selected by an
integer method code.

Python arbitrary-precision integers are modelled as `Nat` (all reachable
arithmetic is on nonnegative values) or `Int` where the sign of the input
matters.  Unbounded `while` loops are modelled with explicit fuel and an
`Option` result (`none` = the loop did not finish within the fuel); a
Python exception is modelled as `none`.  `random.randint(2, n-2)` draws
are modelled by an explicit list of the drawn bases, constrained to the
interval `[2, n-2]` exactly as `randint` guarantees.
-/

/-- Fuel-driven integer square root: smallest-climb loop returning the
largest `r` with `r*r ≤ m` once the fuel is at least `Nat.sqrt m`.
This models Python's exact `math.isqrt(n)`, and also `int(n**0.5)`
(reading `n**0.5` as the exact real square root; the float expression
agrees with the exact value on every input small enough for the
surrounding loops to be feasible). -/
def isqrtAux (m : Nat) : Nat → Nat → Nat
  | 0, r => r
  | fuel+1, r => if (r+1)*(r+1) ≤ m then isqrtAux m fuel (r+1) else r

/-- Integer square root used throughout the embedding. -/
def isqrt (m : Nat) : Nat := isqrtAux m m 0

theorem isqrtAux_eq (m : Nat) : ∀ fuel r, r ≤ Nat.sqrt m → Nat.sqrt m - r ≤ fuel →
    isqrtAux m fuel r = Nat.sqrt m := by
  intro fuel
  induction fuel with
  | zero => intro r h1 h2; simp [isqrtAux]; omega
  | succ fuel ih =>
    intro r h1 h2
    simp only [isqrtAux]
    by_cases h : (r+1)*(r+1) ≤ m
    · have hr1 : r + 1 ≤ Nat.sqrt m := Nat.le_sqrt.mpr h
      rw [if_pos h]
      exact ih (r+1) hr1 (by omega)
    · have : Nat.sqrt m < r + 1 := Nat.sqrt_lt.mpr (by omega)
      rw [if_neg h]
      omega

theorem isqrt_eq (m : Nat) : isqrt m = Nat.sqrt m :=
  isqrtAux_eq m m 0 (Nat.zero_le _) (by have := Nat.sqrt_le_self m; omega)

/-! ## SECTION 1A: Miller-Rabin primality test (`miller_rabin_test`) -/

/-- The decomposition loop `while d % 2 == 0: r += 1; d //= 2` of
`miller_rabin_test`, written with fuel (`fuel ≥ d` suffices); returns
`(r, d)`.  The loop is only reached with `d = n - 1 > 0`. -/
def oddPart : Nat → Nat → Nat × Nat
  | 0, d => (0, d)
  | fuel+1, d =>
    if d % 2 = 0 ∧ 0 < d then
      let p := oddPart fuel (d / 2)
      (p.1 + 1, p.2)
    else (0, d)

/-- The squaring loop of `is_witness`: `for _ in range(r - 1): x = pow(x, 2, n);
if x == n - 1: return False` followed by `return True`. -/
def witnessLoop (n : Nat) : Nat → Nat → Bool
  | 0, _ => true
  | k+1, x =>
    let x2 := x^2 % n
    if x2 = n - 1 then false else witnessLoop n k x2

/-- The inner `is_witness(a)` of `miller_rabin_test`, with the enclosing
function's `n`, `d`, `r` passed explicitly. -/
def is_witness (n d r a : Nat) : Bool :=
  let x := a ^ d % n
  if x = 1 ∨ x = n - 1 then false else witnessLoop n (r - 1) x

/-- `miller_rabin_test(n, k)`.  The `k` random draws `a = random.randint(2, n-2)`
are modelled by the explicit list `bases` of drawn values; the function
returns `False` as soon as one drawn base is a witness, else `True`. -/
def miller_rabin_test (n : Nat) (bases : List Nat) : Bool :=
  if n ≤ 1 then false
  else if n ≤ 3 then true
  else
    let rd := oddPart (n - 1) (n - 1)
    !(bases.any fun a => is_witness n rd.2 rd.1 a)

/-! ## SECTION 1B: Baillie-PSW-style test (`is_prime_baillie_psw`) -/

/-- `is_perfect_square(n)`: `sqrt_n = int(math.isqrt(n)); return sqrt_n * sqrt_n == n`. -/
def is_perfect_square (n : Nat) : Bool := isqrt n * isqrt n == n

/-- The `while divisor <= max_divisor` wheel loop of `is_prime_trial_division`,
testing `divisor` and `divisor + 2` and stepping by 6; fuel `maxd + 1`
is enough iterations. -/
def trialLoop (n maxd : Nat) : Nat → Nat → Bool
  | 0, _ => true
  | fuel+1, divisor =>
    if divisor ≤ maxd then
      if n % divisor = 0 ∨ n % (divisor + 2) = 0 then false
      else trialLoop n maxd fuel (divisor + 6)
    else true

/-- Exact bound of Python's int-to-float conversion: `float(n)` rounds to
nearest and overflows to infinity, raising OverflowError, exactly when
`n ≥ 2^1024 - 2^970` (the midpoint above the largest finite double,
which is `2^1024 - 2^971`).  `math.sqrt(n)` performs this conversion
before taking the square root. -/
def floatOverflowBound : Nat := 2 ^ 1024 - 2 ^ 970

/-- `is_prime_trial_division(n)`.  The bound `max_divisor = int(math.sqrt(n))`
raises OverflowError (modelled as `none`) once the undecided `n` is at or
beyond `floatOverflowBound`; below that bound the float square root is
modelled as the exact integer square root. -/
def is_prime_trial_division (n : Nat) : Option Bool :=
  if n < 2 then some false
  else if n = 2 ∨ n = 3 then some true
  else if n % 2 = 0 ∨ n % 3 = 0 then some false
  else if floatOverflowBound ≤ n then none
  else some (trialLoop n (isqrt n) (isqrt n + 1) 5)

/-- `is_prime_baillie_psw(n)`; the final branch propagates the
trial-division result, its OverflowError included.  (`math.isqrt` inside
`is_perfect_square` is exact integer arithmetic and never overflows.) -/
def is_prime_baillie_psw (n : Nat) : Option Bool :=
  if n < 2 then some false
  else if n = 2 ∨ n = 3 ∨ n = 5 then some true
  else if n % 2 = 0 ∨ n % 3 = 0 ∨ n % 5 = 0 then some false
  else if is_perfect_square (5 * n * n + 4) || is_perfect_square (5 * n * n - 4) then some false
  else is_prime_trial_division n

/-! ## SECTION 1C: AKS delegate (`is_prime_aks`) -/

/-- `is_prime_aks(n)` simply returns `sympy.isprime(n)`.  The external
`sympy.isprime` is a trusted exact primality oracle (deterministic and
correct for all machine-feasible inputs), modelled as deciding `Nat.Prime`. -/
def is_prime_aks (n : Nat) : Bool := decide (Nat.Prime n)

/-! ## SECTION 2A: Brute-force factoring (`factorize_brute_force`) -/

/-- The inner `while n % i == 0: factors.append(i); n //= i` of
`factorize_brute_force`, with fuel (`fuel ≥ n` suffices since each pass
divides `n` by `i ≥ 2`); returns the appended factors and the reduced `n`. -/
def divideOutAux (i : Nat) : Nat → Nat → List Nat × Nat
  | 0, m => ([], m)
  | fuel+1, m =>
    if m % i = 0 then
      let p := divideOutAux i fuel (m / i)
      (i :: p.1, p.2)
    else ([], m)

/-- One full inner-while pass at trial divisor `i`. -/
def divideOut (i m : Nat) : List Nat × Nat := divideOutAux i m m

/-- The outer `for i in range(2, int(n**0.5) + 1)` loop of
`factorize_brute_force`: `cnt` remaining loop indices starting at `i`. -/
def bfAux : Nat → Nat → Nat → List Nat × Nat
  | m, _, 0 => ([], m)
  | m, i, cnt+1 =>
    let p := divideOut i m
    let q := bfAux p.2 (i+1) cnt
    (p.1 ++ q.1, q.2)

/-- `factorize_brute_force` on a nonnegative input: loop indices run over
`range(2, int(n**0.5) + 1)`, i.e. `isqrt n - 1` indices starting at 2,
then the residual is appended when it exceeds 1. -/
def bruteForceList (m : Nat) : List Nat :=
  let p := bfAux m 2 (isqrt m - 1)
  if 1 < p.2 then p.1 ++ [p.2] else p.1

/-- `factorize_brute_force(n)` on a Python integer.  For `n < 0` the
bound expression `int(n**0.5)` raises `TypeError` (`n**0.5` is a complex
number for negative `n`, and `int()` rejects complex values); the raise
is modelled as `none`. -/
def factorize_brute_force (n : Int) : Option (List Nat) :=
  if n < 0 then none else some (bruteForceList n.toNat)

/-! ## SECTION 2B: Pollard's rho (`pollards_rho_factorize`) -/

/-- The iteration function `f = lambda x: (x**2 + 1) % n`. -/
def rhoStep (n x : Nat) : Nat := (x^2 + 1) % n

/-- The inner Euclid loop of the local `gcd(a, b)`:
`while b != 0: a, b = b, a % b`, with fuel (`fuel ≥ b` suffices). -/
def pgcdAux : Nat → Nat → Nat → Nat
  | 0, a, _ => a
  | fuel+1, a, b => if b = 0 then a else pgcdAux fuel b (a % b)

/-- The local `gcd(a, b)` defined inside `pollards_rho_factorize`.
Both arguments are nonnegative at every call site (`abs(x - y)` and `n`). -/
def pgcd (a b : Nat) : Nat := pgcdAux b a b

/-- The `while d == 1` loop of `pollard_rho(n)`: one iteration advances
`x` one step and `y` two steps and recomputes `d = gcd(abs(x - y), n)`;
`abs(x - y)` on the nonnegative values is `Nat.dist`. -/
def pollardRhoAux (n : Nat) : Nat → Nat → Nat → Option Nat
  | _, _, 0 => none
  | x, y, fuel+1 =>
    let x1 := rhoStep n x
    let y1 := rhoStep n (rhoStep n y)
    let d := pgcd (Nat.dist x1 y1) n
    if d = 1 then pollardRhoAux n x1 y1 fuel else some d

/-- The inner `pollard_rho(n)`: `x, y, d = 2, 2, 1` then the `while d == 1`
loop, returning `d` (fuelled). -/
def pollard_rho (n : Nat) (fuel : Nat) : Option Nat := pollardRhoAux n 2 2 fuel

/-- The outer `while n > 1` loop of `pollards_rho_factorize`, with its
own fuel `fo`; every inner call gets fuel `fi`. -/
def pollardsRhoOuter (fi : Nat) : Nat → Nat → Option (List Nat)
  | 0, n => if n ≤ 1 then some [] else none
  | fo+1, n =>
    if n ≤ 1 then some []
    else
      match pollard_rho n fi with
      | none => none
      | some d =>
        match pollardsRhoOuter fi fo (n / d) with
        | none => none
        | some l => some (d :: l)

/-- `pollards_rho_factorize(n)` on a Python integer.  For `n ≤ 1`
(negative included) the `while n > 1` loop never runs and the empty list
is returned, which `Int.toNat` reproduces. -/
def pollards_rho_factorize (n : Int) (fi fo : Nat) : Option (List Nat) :=
  pollardsRhoOuter fi fo n.toNat

/-! ## Method dispatch (`get_factor_method`, `get_prime_check_method`) -/

/-- Tag for the factorization strategy function returned by `get_factor_method`
(`factorize_brute_force` or `pollards_rho_factorize`). -/
inductive FactorMethod where
  | bruteForce
  | pollardsRho
deriving DecidableEq

/-- Tag for the primality strategy function returned by `get_prime_check_method`
(`miller_rabin_test`, `is_prime_baillie_psw` or `is_prime_aks`). -/
inductive PrimeMethod where
  | millerRabin
  | bailliePSW
  | aks
deriving DecidableEq

/-- `get_factor_method(method)`: selects the factoring function for codes
1 and 2; any other code prints `Invalid method selected.` and falls off
the end, returning `None` (modelled as `none`) and no strategy function. -/
def get_factor_method (method : Int) : Option FactorMethod :=
  if method = 1 then some FactorMethod.bruteForce
  else if method = 2 then some FactorMethod.pollardsRho
  else none

/-- `get_prime_check_method(method)`: selects the primality function for
codes 1, 2 and 3; any other code returns `None`. -/
def get_prime_check_method (method : Int) : Option PrimeMethod :=
  if method = 1 then some PrimeMethod.millerRabin
  else if method = 2 then some PrimeMethod.bailliePSW
  else if method = 3 then some PrimeMethod.aks
  else none

/-! ## Lemmas about the brute-force factoring loops -/

theorem divideOutAux_prod (i : Nat) : ∀ fuel m,
    ((divideOutAux i fuel m).1).prod * (divideOutAux i fuel m).2 = m := by
  intro fuel
  induction fuel with
  | zero => intro m; simp [divideOutAux]
  | succ fuel ih =>
    intro m
    simp only [divideOutAux]
    by_cases h : m % i = 0
    · rw [if_pos h]
      simp only [List.prod_cons]
      rw [Nat.mul_assoc, ih (m / i)]
      exact Nat.mul_div_cancel' (Nat.dvd_of_mod_eq_zero h)
    · rw [if_neg h]; simp

theorem divideOutAux_mem (i : Nat) : ∀ fuel m x,
    x ∈ (divideOutAux i fuel m).1 → x = i := by
  intro fuel
  induction fuel with
  | zero => intro m x hx; simp [divideOutAux] at hx
  | succ fuel ih =>
    intro m x hx
    simp only [divideOutAux] at hx
    by_cases h : m % i = 0
    · rw [if_pos h] at hx
      simp only [List.mem_cons] at hx
      rcases hx with h1 | h2
      · exact h1
      · exact ih (m / i) x h2
    · rw [if_neg h] at hx; simp at hx

theorem divideOutAux_res (i : Nat) : ∀ fuel m, 2 ≤ i → 0 < m → m ≤ fuel →
    0 < (divideOutAux i fuel m).2 ∧ ¬ i ∣ (divideOutAux i fuel m).2 := by
  intro fuel
  induction fuel with
  | zero => intro m _ h1 h2; omega
  | succ fuel ih =>
    intro m hi hm hf
    simp only [divideOutAux]
    by_cases h : m % i = 0
    · rw [if_pos h]
      have hdvd : i ∣ m := Nat.dvd_of_mod_eq_zero h
      have h1 : 0 < m / i := Nat.div_pos (Nat.le_of_dvd hm hdvd) (by omega)
      have h2 : m / i < m := Nat.div_lt_self hm (by omega)
      exact ih (m / i) hi h1 (by omega)
    · rw [if_neg h]
      refine ⟨hm, fun hd => h ?_⟩
      rcases hd with ⟨c, rfl⟩
      exact Nat.mul_mod_right i c

theorem bfAux_prod : ∀ cnt m i, ((bfAux m i cnt).1).prod * (bfAux m i cnt).2 = m := by
  intro cnt
  induction cnt with
  | zero => intro m i; simp [bfAux]
  | succ cnt ih =>
    intro m i
    simp only [bfAux, List.prod_append]
    rw [Nat.mul_assoc, ih (divideOut i m).2 (i+1)]
    exact divideOutAux_prod i m m

theorem bfAux_mem : ∀ cnt m i x, x ∈ (bfAux m i cnt).1 → i ≤ x := by
  intro cnt
  induction cnt with
  | zero => intro m i x hx; simp [bfAux] at hx
  | succ cnt ih =>
    intro m i x hx
    simp only [bfAux, List.mem_append] at hx
    rcases hx with h1 | h2
    · exact Nat.le_of_eq (divideOutAux_mem i m m x h1).symm
    · have := ih (divideOut i m).2 (i+1) x h2
      omega

theorem bfAux_invariant : ∀ cnt i m, 2 ≤ i → 0 < m →
    (∀ j, 2 ≤ j → j < i → ¬ j ∣ m) →
    (∀ x ∈ (bfAux m i cnt).1, Nat.Prime x) ∧ 0 < (bfAux m i cnt).2 ∧
    (∀ j, 2 ≤ j → j < i + cnt → ¬ j ∣ (bfAux m i cnt).2) := by
  intro cnt
  induction cnt with
  | zero =>
    intro i m hi hm H
    refine ⟨?_, hm, ?_⟩
    · intro x hx; simp [bfAux] at hx
    · intro j h2 hj; exact H j h2 (by omega)
  | succ cnt ih =>
    intro i m hi hm H
    have hp_prod := divideOutAux_prod i m m
    have hp_res := divideOutAux_res i m m hi hm (Nat.le_refl m)
    have hp2_dvd_m : (divideOut i m).2 ∣ m :=
      ⟨((divideOut i m).1).prod, by rw [Nat.mul_comm]; exact hp_prod.symm⟩
    have H' : ∀ j, 2 ≤ j → j < i + 1 → ¬ j ∣ (divideOut i m).2 := by
      intro j h2 hj hd
      by_cases hji : j = i
      · exact hp_res.2 (hji ▸ hd)
      · exact H j h2 (by omega) (hd.trans hp2_dvd_m)
    have hrec := ih (i+1) (divideOut i m).2 (by omega) hp_res.1 H'
    refine ⟨?_, hrec.2.1, ?_⟩
    · intro x hx
      simp only [bfAux, List.mem_append] at hx
      rcases hx with h1 | h2
      · -- x is the loop index i, appended only because i divides the residual,
        -- which the invariant H shows has no divisor in [2, i): hence i is prime
        have hxi : x = i := divideOutAux_mem i m m x h1
        have hidvd : i ∣ m := by
          have : i ∣ ((divideOut i m).1).prod :=
            List.dvd_prod (show i ∈ (divideOut i m).1 from hxi ▸ h1)
          exact this.trans ⟨(divideOut i m).2, hp_prod.symm⟩
        subst hxi
        by_contra hnp
        have hq : x.minFac.Prime := Nat.minFac_prime (by omega)
        have hqx : x.minFac ∣ x := Nat.minFac_dvd x
        have hqlt : x.minFac < x := by
          have hle := Nat.minFac_le (show 0 < x by omega)
          have : x.minFac ≠ x := fun he => hnp (Nat.prime_def_minFac.mpr ⟨hi, he⟩)
          omega
        exact H x.minFac hq.two_le (by omega) (hqx.trans hidvd)
      · exact (hrec.1) x h2
    · intro j h2 hj
      have : j < (i + 1) + cnt := by omega
      simp only [bfAux]
      exact hrec.2.2 j h2 this

theorem bruteForceList_prod_ge (m : Nat) (hm : 2 ≤ m) :
    (bruteForceList m).prod = m ∧ ∀ x ∈ bruteForceList m, 2 ≤ x := by
  have hp := bfAux_prod (isqrt m - 1) m 2
  have hmem := fun x => bfAux_mem (isqrt m - 1) m 2 x
  unfold bruteForceList
  by_cases h : 1 < (bfAux m 2 (isqrt m - 1)).2
  · rw [if_pos h]
    constructor
    · rw [List.prod_append, List.prod_cons, List.prod_nil, Nat.mul_one]; exact hp
    · intro x hx
      rcases List.mem_append.mp hx with h1 | h2
      · exact hmem x h1
      · simp only [List.mem_singleton] at h2; omega
  · rw [if_neg h]
    have hr : (bfAux m 2 (isqrt m - 1)).2 = 1 := by
      rcases Nat.lt_or_ge (bfAux m 2 (isqrt m - 1)).2 1 with h1 | h1
      · exfalso; have : (bfAux m 2 (isqrt m - 1)).2 = 0 := by omega
        rw [this, Nat.mul_zero] at hp; omega
      · omega
    constructor
    · rw [hr, Nat.mul_one] at hp; exact hp
    · exact fun x hx => hmem x hx

theorem bruteForceList_prime (m : Nat) (hm : 2 ≤ m) :
    ∀ x ∈ bruteForceList m, Nat.Prime x := by
  have hinv := bfAux_invariant (isqrt m - 1) 2 m (Nat.le_refl 2) (by omega)
    (by intro j h2 hj; omega)
  have hp := bfAux_prod (isqrt m - 1) m 2
  have hsq : 1 ≤ Nat.sqrt m := by
    have := Nat.sqrt_pos.mpr (show 0 < m by omega); omega
  intro x hx
  unfold bruteForceList at hx
  by_cases h : 1 < (bfAux m 2 (isqrt m - 1)).2
  · rw [if_pos h] at hx
    rcases List.mem_append.mp hx with h1 | h2
    · exact hinv.1 x h1
    · -- the residual r: it divides m and has no divisor in [2, sqrt m], so prime
      simp only [List.mem_singleton] at h2
      subst h2
      set r := (bfAux m 2 (isqrt m - 1)).2 with hr
      by_contra hnp
      have hq : r.minFac.Prime := Nat.minFac_prime (by omega)
      have hq2 : r.minFac * r.minFac ≤ r := by
        have := Nat.minFac_sq_le_self (show 0 < r by omega) hnp
        rwa [Nat.pow_two] at this
      have hrm : r ∣ m := ⟨((bfAux m 2 (isqrt m - 1)).1).prod, by rw [Nat.mul_comm]; exact hp.symm⟩
      have hrle : r ≤ m := Nat.le_of_dvd (by omega) hrm
      have hqsqrt : r.minFac ≤ Nat.sqrt m := Nat.le_sqrt.mpr (by omega)
      have := hinv.2.2 r.minFac hq.two_le (by rw [isqrt_eq]; omega) (Nat.minFac_dvd r)
      exact this
  · rw [if_neg h] at hx
    exact hinv.1 x hx

/-! ## Lemmas about the Pollard's rho loops -/

theorem pgcdAux_eq : ∀ fuel a b, b ≤ fuel → pgcdAux fuel a b = Nat.gcd a b := by
  intro fuel
  induction fuel with
  | zero =>
    intro a b hb
    have : b = 0 := by omega
    subst this
    simp [pgcdAux]
  | succ fuel ih =>
    intro a b hb
    simp only [pgcdAux]
    by_cases h : b = 0
    · subst h; simp
    · rw [if_neg h]
      have hlt : a % b < b := Nat.mod_lt a (by omega)
      rw [ih b (a % b) (by omega)]
      rw [Nat.gcd_comm b (a % b), ← Nat.gcd_rec b a, Nat.gcd_comm b a]

theorem pgcd_eq (a b : Nat) : pgcd a b = Nat.gcd a b :=
  pgcdAux_eq b a b (Nat.le_refl b)

/-- Every divisor the `while d == 1` loop returns divides `n` and is not 1. -/
theorem pollardRhoAux_sound (n : Nat) : ∀ fuel x y d,
    pollardRhoAux n x y fuel = some d → d ∣ n ∧ d ≠ 1 := by
  intro fuel
  induction fuel with
  | zero => intro x y d h; cases h
  | succ fuel ih =>
    intro x y d h
    simp only [pollardRhoAux] at h
    by_cases hd : pgcd (Nat.dist (rhoStep n x) (rhoStep n (rhoStep n y))) n = 1
    · rw [if_pos hd] at h
      exact ih _ _ d h
    · rw [if_neg hd] at h
      injection h with h
      subst h
      rw [pgcd_eq]
      exact ⟨Nat.gcd_dvd_right _ n, by rw [pgcd_eq] at hd; exact hd⟩

/-- The value sequence `x_0 = 2, x_{i+1} = f(x_i)` traced by `pollard_rho`:
after `j` loop iterations the slow variable holds `rhoSeq n j` and the
fast variable `rhoSeq n (2*j)`. -/
def rhoSeq (n : Nat) : Nat → Nat
  | 0 => 2
  | i+1 => rhoStep n (rhoSeq n i)

theorem rhoSeq_lt (n : Nat) (hn : 0 < n) (i : Nat) : rhoSeq n (i+1) < n :=
  Nat.mod_lt _ hn

theorem rhoSeq_shift (n i j : Nat) (h : rhoSeq n i = rhoSeq n j) :
    ∀ k, rhoSeq n (i + k) = rhoSeq n (j + k) := by
  intro k
  induction k with
  | zero => exact h
  | succ k ihk =>
    show rhoStep n (rhoSeq n (i + k)) = rhoStep n (rhoSeq n (j + k))
    rw [ihk]

theorem rhoSeq_add_mul (n i p : Nat) (h : rhoSeq n i = rhoSeq n (i + p)) :
    ∀ c k, rhoSeq n (i + k) = rhoSeq n (i + k + c * p) := by
  intro c
  induction c with
  | zero => intro k; simp
  | succ c ihc =>
    intro k
    rw [ihc k]
    have h2 := rhoSeq_shift n i (i + p) h (k + c * p)
    have e1 : i + (k + c * p) = i + k + c * p := by omega
    have e2 : i + p + (k + c * p) = i + k + (c + 1) * p := by ring
    rw [e1, e2] at h2
    exact h2

/-- Floyd's tortoise-and-hare meeting: over the finite value range of
`f(x) = (x^2+1) % n` some iteration `t ≥ 1` has `x_t = x_{2t}`. -/
theorem rhoSeq_meet (n : Nat) (hn : 2 ≤ n) :
    ∃ t, 1 ≤ t ∧ rhoSeq n t = rhoSeq n (2 * t) := by
  have hcard : Fintype.card (Fin n) < Fintype.card (Fin (n + 1)) := by simp
  obtain ⟨a, b, hab, hfab⟩ := Fintype.exists_ne_map_eq_of_card_lt
    (fun k : Fin (n + 1) => (⟨rhoSeq n (k.val + 1), rhoSeq_lt n (by omega) k.val⟩ : Fin n)) hcard
  have hval : rhoSeq n (a.val + 1) = rhoSeq n (b.val + 1) := congrArg Fin.val hfab
  -- order the two indices
  rcases Nat.lt_or_ge a.val b.val with hlt | hge
  · refine ⟨(a.val + 1) * (b.val - a.val), Nat.mul_pos (by omega) (by omega), ?_⟩
    have hper : rhoSeq n (a.val + 1) = rhoSeq n ((a.val + 1) + (b.val - a.val)) := by
      have : (a.val + 1) + (b.val - a.val) = b.val + 1 := by omega
      rw [this]; exact hval
    have := rhoSeq_add_mul n (a.val + 1) (b.val - a.val) hper (a.val + 1)
      ((a.val + 1) * (b.val - a.val) - (a.val + 1))
    have e1 : (a.val + 1) + ((a.val + 1) * (b.val - a.val) - (a.val + 1)) =
        (a.val + 1) * (b.val - a.val) := by
      have h1 : 1 ≤ b.val - a.val := by omega
      have h2 : a.val + 1 ≤ (a.val + 1) * (b.val - a.val) :=
        Nat.le_mul_of_pos_right _ (by omega)
      omega
    rw [e1] at this
    have e2 : (a.val + 1) * (b.val - a.val) + (a.val + 1) * (b.val - a.val) =
        2 * ((a.val + 1) * (b.val - a.val)) := by ring
    rw [e2] at this
    exact this
  · have hlt : b.val < a.val := by
      rcases Nat.lt_or_ge b.val a.val with h | h
      · exact h
      · exfalso; exact hab (Fin.ext (by omega))
    refine ⟨(b.val + 1) * (a.val - b.val), Nat.mul_pos (by omega) (by omega), ?_⟩
    have hper : rhoSeq n (b.val + 1) = rhoSeq n ((b.val + 1) + (a.val - b.val)) := by
      have : (b.val + 1) + (a.val - b.val) = a.val + 1 := by omega
      rw [this]; exact hval.symm
    have := rhoSeq_add_mul n (b.val + 1) (a.val - b.val) hper (b.val + 1)
      ((b.val + 1) * (a.val - b.val) - (b.val + 1))
    have e1 : (b.val + 1) + ((b.val + 1) * (a.val - b.val) - (b.val + 1)) =
        (b.val + 1) * (a.val - b.val) := by
      have h2 : b.val + 1 ≤ (b.val + 1) * (a.val - b.val) :=
        Nat.le_mul_of_pos_right _ (by omega)
      omega
    rw [e1] at this
    have e2 : (b.val + 1) * (a.val - b.val) + (b.val + 1) * (a.val - b.val) =
        2 * ((b.val + 1) * (a.val - b.val)) := by ring
    rw [e2] at this
    exact this

/-- With the loop state at iteration `j` and a meeting time `T` ahead,
enough fuel makes the `while d == 1` loop exit. -/
theorem pollardRhoAux_term (n : Nat) (hn : 2 ≤ n) (T : Nat) (_hT : 1 ≤ T)
    (hmeet : rhoSeq n T = rhoSeq n (2 * T)) :
    ∀ fuel j, j < T → T - j ≤ fuel →
      (pollardRhoAux n (rhoSeq n j) (rhoSeq n (2 * j)) fuel).isSome := by
  intro fuel
  induction fuel with
  | zero => intro j h1 h2; omega
  | succ fuel ih =>
    intro j h1 h2
    simp only [pollardRhoAux]
    have hx : rhoStep n (rhoSeq n j) = rhoSeq n (j + 1) := rfl
    have hy : rhoStep n (rhoStep n (rhoSeq n (2 * j))) = rhoSeq n (2 * (j + 1)) := by
      have : 2 * (j + 1) = (2 * j + 1) + 1 := by omega
      rw [this]; rfl
    rw [hx, hy]
    by_cases hd : pgcd (Nat.dist (rhoSeq n (j + 1)) (rhoSeq n (2 * (j + 1)))) n = 1
    · rw [if_pos hd]
      have hne : j + 1 ≠ T := by
        intro he
        rw [he, ← hmeet, Nat.dist_self, pgcd_eq, Nat.gcd_zero_left] at hd
        omega
      exact ih (j + 1) (by omega) (by omega)
    · rw [if_neg hd]
      rfl

/-- On a prime input the loop always exits with `d = n`: for prime `n`
any returned `gcd(|x - y|, n) ≠ 1` must be `n` itself. -/
theorem pollard_rho_prime (n : Nat) (hp : Nat.Prime n) :
    ∃ fuel, pollard_rho n fuel = some n := by
  have hn : 2 ≤ n := hp.two_le
  obtain ⟨T, hT, hmeet⟩ := rhoSeq_meet n hn
  have hterm := pollardRhoAux_term n hn T hT hmeet T 0 (by omega) (by omega)
  rw [show (2 * 0 : Nat) = 0 from rfl] at hterm
  have h2 : rhoSeq n 0 = 2 := rfl
  rw [h2] at hterm
  refine ⟨T, ?_⟩
  unfold pollard_rho
  cases hres : pollardRhoAux n 2 2 T with
  | none => rw [hres] at hterm; cases hterm
  | some d =>
    obtain ⟨hdvd, hne⟩ := pollardRhoAux_sound n T 2 2 d hres
    have : d = n := ((hp.eq_one_or_self_of_dvd d hdvd).resolve_left hne)
    rw [this]

/-- For inputs already at most 1 the outer loop returns the empty list
at once, whatever the fuels. -/
theorem pollardsRhoOuter_of_le_one (fi fo n : Nat) (hn : n ≤ 1) :
    pollardsRhoOuter fi fo n = some [] := by
  cases fo with
  | zero => simp [pollardsRhoOuter, hn]
  | succ fo => simp [pollardsRhoOuter, hn]

/-- Partial correctness of the outer `while n > 1` loop: any returned
factor list multiplies back to `n` and has every entry at least 2. -/
theorem pollardsRhoOuter_sound (fi : Nat) : ∀ fo n l, 1 ≤ n →
    pollardsRhoOuter fi fo n = some l → l.prod = n ∧ ∀ x ∈ l, 2 ≤ x := by
  intro fo
  induction fo with
  | zero =>
    intro n l h1 h
    simp only [pollardsRhoOuter] at h
    split at h
    · rename_i hn
      injection h with h
      subst h
      exact ⟨by simp only [List.prod_nil]; omega, by simp⟩
    · cases h
  | succ fo ih =>
    intro n l h1 h
    simp only [pollardsRhoOuter] at h
    split at h
    · rename_i hn
      injection h with h
      subst h
      exact ⟨by simp only [List.prod_nil]; omega, by simp⟩
    · rename_i hn
      split at h
      · cases h
      · rename_i d hd
        split at h
        · cases h
        · rename_i l1 hrec
          injection h with h
          subst h
          obtain ⟨hdvd, hne1⟩ := pollardRhoAux_sound n fi 2 2 d hd
          have hd0 : d ≠ 0 := by
            intro he; subst he
            rcases hdvd with ⟨c, hc⟩
            omega
          have hd2 : 2 ≤ d := by omega
          have hdle : d ≤ n := Nat.le_of_dvd (by omega) hdvd
          have hq1 : 1 ≤ n / d := Nat.div_pos hdle (by omega)
          obtain ⟨hprod, hmem⟩ := ih (n / d) l1 hq1 hrec
          constructor
          · rw [List.prod_cons, hprod]
            exact Nat.mul_div_cancel' hdvd
          · intro x hx
            rcases List.mem_cons.mp hx with h' | h'
            · omega
            · exact hmem x h'

/-- The `while d == 1` loop's result does not depend on the fuel: two
runs that both exit return the same divisor. -/
theorem pollardRhoAux_det (n : Nat) : ∀ fuel fuel' x y d d',
    pollardRhoAux n x y fuel = some d → pollardRhoAux n x y fuel' = some d' → d = d' := by
  intro fuel
  induction fuel with
  | zero => intro fuel' x y d d' h; cases h
  | succ fuel ih =>
    intro fuel' x y d d' h h'
    cases fuel' with
    | zero => cases h'
    | succ fuel' =>
      simp only [pollardRhoAux] at h h'
      by_cases hd : pgcd (Nat.dist (rhoStep n x) (rhoStep n (rhoStep n y))) n = 1
      · rw [if_pos hd] at h h'
        exact ih fuel' _ _ d d' h h'
      · rw [if_neg hd] at h h'
        injection h with h
        injection h' with h'
        rw [← h, ← h']

/-- The outer loop's result does not depend on either fuel: the factor
list is a function of `n` alone. -/
theorem pollardsRhoOuter_det : ∀ fo fo' fi fi' n l l',
    pollardsRhoOuter fi fo n = some l → pollardsRhoOuter fi' fo' n = some l' → l = l' := by
  intro fo
  induction fo with
  | zero =>
    intro fo' fi fi' n l l' h h'
    simp only [pollardsRhoOuter] at h
    split at h
    · rename_i hn
      injection h with h
      rw [pollardsRhoOuter_of_le_one fi' fo' n hn] at h'
      injection h' with h'
      rw [← h, ← h']
    · cases h
  | succ fo ih =>
    intro fo' fi fi' n l l' h h'
    by_cases hn : n ≤ 1
    · rw [pollardsRhoOuter_of_le_one fi (fo+1) n hn] at h
      rw [pollardsRhoOuter_of_le_one fi' fo' n hn] at h'
      injection h with h
      injection h' with h'
      rw [← h, ← h']
    · cases fo' with
      | zero =>
        simp only [pollardsRhoOuter, if_neg hn] at h'
        cases h'
      | succ fo' =>
        simp only [pollardsRhoOuter, if_neg hn] at h h'
        split at h
        · cases h
        · rename_i d hd
          split at h
          · cases h
          · rename_i l1 hrec
            injection h with h
            split at h'
            · cases h'
            · rename_i d2 hd2
              have hdd : d = d2 := pollardRhoAux_det n fi fi' 2 2 d d2 hd hd2
              subst hdd
              split at h'
              · cases h'
              · rename_i l2 hrec2
                injection h' with h'
                have hll : l1 = l2 := ih fo' fi fi' (n / d) l1 l2 hrec hrec2
                rw [← h, ← h', hll]

/-! ## Lemmas about the Miller-Rabin loops -/

theorem oddPart_spec : ∀ fuel d, 0 < d → d ≤ fuel →
    d = 2 ^ (oddPart fuel d).1 * (oddPart fuel d).2 ∧
    ¬ 2 ∣ (oddPart fuel d).2 ∧ 0 < (oddPart fuel d).2 := by
  intro fuel
  induction fuel with
  | zero => intro d h1 h2; omega
  | succ fuel ih =>
    intro d h1 h2
    simp only [oddPart]
    by_cases h : d % 2 = 0 ∧ 0 < d
    · rw [if_pos h]
      have hdvd : 2 ∣ d := Nat.dvd_of_mod_eq_zero h.1
      obtain ⟨ha, hb, hc⟩ := ih (d / 2) (by omega) (by omega)
      refine ⟨?_, hb, hc⟩
      show d = 2 ^ ((oddPart fuel (d / 2)).1 + 1) * (oddPart fuel (d / 2)).2
      set p := oddPart fuel (d / 2) with hpdef
      have hd2 : d = 2 * (d / 2) := (Nat.mul_div_cancel' hdvd).symm
      rw [hd2, ha, pow_succ]
      ring
    · rw [if_neg h]
      refine ⟨by simp, ?_, h1⟩
      intro hdvd
      rcases hdvd with ⟨c, rfl⟩
      exact h ⟨Nat.mul_mod_right 2 c, h1⟩

/-- The squaring chain traced by `is_witness`: `mrChain n x0 i` is the value
of `x` after `i` squarings mod `n` starting from `x0`. -/
def mrChain (n x0 : Nat) : Nat → Nat
  | 0 => x0
  | i+1 => (mrChain n x0 i)^2 % n

theorem mrChain_shift (n x : Nat) : ∀ i, mrChain n x (i + 1) = mrChain n (x^2 % n) i := by
  intro i
  induction i with
  | zero => rfl
  | succ i ih =>
    show (mrChain n x (i + 1))^2 % n = (mrChain n (x^2 % n) i)^2 % n
    rw [ih]

theorem witnessLoop_false (n : Nat) : ∀ k x,
    (∃ i, 1 ≤ i ∧ i ≤ k ∧ mrChain n x i = n - 1) → witnessLoop n k x = false := by
  intro k
  induction k with
  | zero => intro x ⟨i, h1, h2, _⟩; omega
  | succ k ih =>
    intro x ⟨i, h1, h2, h3⟩
    simp only [witnessLoop]
    by_cases hx2 : x^2 % n = n - 1
    · rw [if_pos hx2]
    · rw [if_neg hx2]
      rcases Nat.eq_or_lt_of_le h1 with he | hlt
      · exfalso
        rw [← he] at h3
        exact hx2 h3
      · refine ih (x^2 % n) ⟨i - 1, by omega, by omega, ?_⟩
        have h4 : mrChain n (x^2 % n) (i - 1) = mrChain n x i := by
          have hs := mrChain_shift n x (i - 1)
          rw [show i - 1 + 1 = i from by omega] at hs
          exact hs.symm
        rw [h4]
        exact h3

theorem mrChain_lt (n : Nat) (hn : 0 < n) (x0 : Nat) (hx0 : x0 < n) :
    ∀ i, mrChain n x0 i < n := by
  intro i
  cases i with
  | zero => exact hx0
  | succ i => exact Nat.mod_lt _ hn

theorem mrChain_cast (n a d : Nat) :
    ∀ i, ((mrChain n (a ^ d % n) i : Nat) : ZMod n) = (a : ZMod n) ^ (d * 2 ^ i) := by
  intro i
  induction i with
  | zero =>
    show ((a ^ d % n : Nat) : ZMod n) = _
    rw [ZMod.natCast_mod, Nat.cast_pow, pow_zero, Nat.mul_one]
  | succ i ih =>
    show (((mrChain n (a ^ d % n) i)^2 % n : Nat) : ZMod n) = _
    rw [ZMod.natCast_mod, Nat.cast_pow, ih, ← pow_mul]
    congr 1
    rw [pow_succ]
    ring

theorem natCast_zmod_inj (n x y : Nat) (hx : x < n) (hy : y < n)
    (h : (x : ZMod n) = (y : ZMod n)) : x = y := by
  haveI : NeZero n := ⟨by omega⟩
  have hx' := ZMod.val_cast_of_lt hx
  have hy' := ZMod.val_cast_of_lt hy
  rw [← hx', ← hy', h]

/-- For prime `n ≥ 5` no base `a` in `[2, n-2]` is a Miller-Rabin witness:
either `a^d mod n` is `1` or `n-1`, or some square in the chain hits `n-1`
before the exponent `2^r` is exhausted. -/
theorem mr_not_witness (n : Nat) (hp : Nat.Prime n) (h5 : 5 ≤ n) (d r : Nat)
    (hdecomp : n - 1 = 2 ^ r * d) (hr : 1 ≤ r)
    (a : Nat) (ha2 : 2 ≤ a) (han : a ≤ n - 2) :
    is_witness n d r a = false := by
  haveI : Fact (Nat.Prime n) := ⟨hp⟩
  simp only [is_witness]
  by_cases hx : a ^ d % n = 1 ∨ a ^ d % n = n - 1
  · rw [if_pos hx]
  · rw [if_neg hx]
    push_neg at hx
    obtain ⟨hx1, hxn1⟩ := hx
    have hb0 : (a : ZMod n) ≠ 0 := by
      intro h0
      have hdvd := (ZMod.natCast_zmod_eq_zero_iff_dvd a n).mp h0
      have := Nat.le_of_dvd (by omega) hdvd
      omega
    have hfermat : (a : ZMod n) ^ (n - 1) = 1 := ZMod.pow_card_sub_one_eq_one hb0
    have hchain_r : ((mrChain n (a ^ d % n) r : Nat) : ZMod n) = 1 := by
      rw [mrChain_cast, Nat.mul_comm d (2 ^ r), ← hdecomp]
      exact hfermat
    have hex : ∃ i, ((mrChain n (a ^ d % n) i : Nat) : ZMod n) = 1 := ⟨r, hchain_r⟩
    set j := Nat.find hex with hjdef
    have hj : ((mrChain n (a ^ d % n) j : Nat) : ZMod n) = 1 := Nat.find_spec hex
    have hjr : j ≤ r := Nat.find_min' hex hchain_r
    have hj0 : ¬ ((mrChain n (a ^ d % n) 0 : Nat) : ZMod n) = 1 := by
      intro h0
      have h0' : ((a ^ d % n : Nat) : ZMod n) = ((1 : Nat) : ZMod n) := by
        rw [Nat.cast_one]
        exact h0
      have := natCast_zmod_inj n (a ^ d % n) 1 (Nat.mod_lt _ (by omega)) (by omega) h0'
      exact hx1 this
    have hj1 : 1 ≤ j := by
      rcases Nat.eq_zero_or_pos j with he | h
      · exact absurd (he ▸ hj) hj0
      · exact h
    have hjprev : ¬ ((mrChain n (a ^ d % n) (j - 1) : Nat) : ZMod n) = 1 :=
      Nat.find_min hex (by omega)
    have hsq : ((mrChain n (a ^ d % n) (j - 1) : Nat) : ZMod n) *
        ((mrChain n (a ^ d % n) (j - 1) : Nat) : ZMod n) = 1 := by
      have he : j = (j - 1) + 1 := by omega
      rw [he] at hj
      have : ((mrChain n (a ^ d % n) ((j - 1) + 1) : Nat) : ZMod n) =
          ((mrChain n (a ^ d % n) (j - 1) : Nat) : ZMod n) ^ 2 := by
        show (((mrChain n (a ^ d % n) (j - 1))^2 % n : Nat) : ZMod n) = _
        rw [ZMod.natCast_mod, Nat.cast_pow]
      rw [this, pow_two] at hj
      exact hj
    have hneg : ((mrChain n (a ^ d % n) (j - 1) : Nat) : ZMod n) = -1 :=
      (mul_self_eq_one_iff.mp hsq).resolve_left hjprev
    have hcast_n1 : ((n - 1 : Nat) : ZMod n) = -1 := by
      rw [Nat.cast_sub (by omega), ZMod.natCast_self, Nat.cast_one, zero_sub]
    have hprev_eq : mrChain n (a ^ d % n) (j - 1) = n - 1 := by
      refine natCast_zmod_inj n _ _ ?_ (by omega) ?_
      · exact mrChain_lt n (by omega) _ (Nat.mod_lt _ (by omega)) _
      · rw [hneg, hcast_n1]
    have hjm1 : 1 ≤ j - 1 := by
      rcases Nat.eq_zero_or_pos (j - 1) with he | h
      · exfalso
        have : mrChain n (a ^ d % n) 0 = n - 1 := by rw [← he]; exact hprev_eq
        exact hxn1 this
      · exact h
    exact witnessLoop_false n (r - 1) (a ^ d % n) ⟨j - 1, hjm1, by omega, hprev_eq⟩


/-- A number whose residue mod p is not a quadratic residue mod p is not
a perfect square. -/
theorem is_perfect_square_eq_false_of_mod (p : Nat) (hp : 0 < p) (m r : Nat)
    (hm : m % p = r) (hr : ∀ k, k < p → (k * k) % p ≠ r) :
    is_perfect_square m = false := by
  cases hps : is_perfect_square m with
  | false => rfl
  | true =>
    exfalso
    have hsq : isqrt m * isqrt m = m := by
      simp only [is_perfect_square, beq_iff_eq] at hps
      exact hps
    have hmod : ((isqrt m % p) * (isqrt m % p)) % p = r := by
      rw [← Nat.mul_mod, hsq, hm]
    exact hr (isqrt m % p) (Nat.mod_lt _ hp) hmod

/-! ## Claim theorems -/

/-- C1: for every integer n > 1 and either factorization strategy, the
returned factor sequence multiplies back to n and every entry is at
least 2 (partial correctness for the fuelled Pollard loops: whenever a
list is returned it satisfies the property). -/
theorem factorization_round_trip (n : Int) (hn : 1 < n) :
    (∀ l, factorize_brute_force n = some l → ((l.prod : Int) = n ∧ ∀ f ∈ l, 2 ≤ f)) ∧
    (∀ fi fo l, pollards_rho_factorize n fi fo = some l →
      ((l.prod : Int) = n ∧ ∀ f ∈ l, 2 ≤ f)) := by
  have hnn : (0 : Int) ≤ n := by omega
  have h2 : 2 ≤ n.toNat := by omega
  constructor
  · intro l hl
    simp only [factorize_brute_force, if_neg (show ¬ n < 0 by omega)] at hl
    injection hl with hl
    subst hl
    obtain ⟨hprod, hge⟩ := bruteForceList_prod_ge n.toNat h2
    refine ⟨?_, hge⟩
    rw [hprod]
    exact Int.toNat_of_nonneg hnn
  · intro fi fo l hl
    simp only [pollards_rho_factorize] at hl
    obtain ⟨hprod, hge⟩ := pollardsRhoOuter_sound fi fo n.toNat l (by omega) hl
    refine ⟨?_, hge⟩
    rw [hprod]
    exact Int.toNat_of_nonneg hnn

theorem factorization_round_trip_witness :
    (1 : Int) < 6 ∧ (([2, 3] : List Nat).prod : Int) = 6 ∧
    ∀ f ∈ ([2, 3] : List Nat), 2 ≤ f :=
  ⟨by decide, ((factorization_round_trip 6 (by decide)).1 [2, 3] (by decide)).1,
   ((factorization_round_trip 6 (by decide)).1 [2, 3] (by decide)).2⟩

/-- C2: brute-force trial division returns only prime factors for every
n ≥ 2, and on 360 it returns exactly [2, 2, 2, 3, 3, 5]. -/
theorem brute_force_prime_factorization (n : Int) (hn : 2 ≤ n) :
    (∀ l, factorize_brute_force n = some l → ∀ p ∈ l, Nat.Prime p) ∧
    factorize_brute_force 360 = some [2, 2, 2, 3, 3, 5] := by
  constructor
  · intro l hl
    simp only [factorize_brute_force, if_neg (show ¬ n < 0 by omega)] at hl
    injection hl with hl
    subst hl
    exact bruteForceList_prime n.toNat (by omega)
  · decide

theorem brute_force_prime_factorization_witness :
    (2 : Int) ≤ 360 ∧ (∀ p ∈ ([2, 2, 2, 3, 3, 5] : List Nat), Nat.Prime p) ∧
    factorize_brute_force 360 = some [2, 2, 2, 3, 3, 5] :=
  ⟨by decide,
   fun p hp => (brute_force_prime_factorization 360 (by decide)).1 [2, 2, 2, 3, 3, 5]
     (brute_force_prime_factorization 360 (by decide)).2 p hp,
   (brute_force_prime_factorization 360 (by decide)).2⟩

/-- C3 (code bug): 13 is prime and the AKS delegate says so, but the
Baillie-PSW-style strategy returns false on 13, because 13 is a
Fibonacci number: 5*13^2 - 4 = 841 = 29^2, so the perfect-square check
rejects it.  The claim that every strategy returns true on 13 fails on
the code. -/
theorem baillie_psw_rejects_prime_13 :
    is_prime_baillie_psw 13 = some false ∧ Nat.Prime 13 ∧ is_prime_aks 13 = true :=
  ⟨by decide, by decide, by decide⟩

/-- C4: Miller-Rabin has no false negatives: on a prime n, whatever list
of random bases from [2, n-2] is drawn (any round count), the test
returns true. -/
theorem miller_rabin_no_false_negatives (n : Nat) (bases : List Nat)
    (hp : Nat.Prime n) (hb : ∀ a ∈ bases, 2 ≤ a ∧ a ≤ n - 2) :
    miller_rabin_test n bases = true := by
  unfold miller_rabin_test
  have h2 := hp.two_le
  rw [if_neg (show ¬ n ≤ 1 by omega)]
  by_cases h3 : n ≤ 3
  · rw [if_pos h3]
  · rw [if_neg h3]
    have h5 : 5 ≤ n := by
      by_contra hlt
      have h4 : n = 4 := by omega
      subst h4
      exact absurd hp (by decide)
    show (!(bases.any fun a =>
      is_witness n (oddPart (n-1) (n-1)).2 (oddPart (n-1) (n-1)).1 a)) = true
    obtain ⟨hdec, hodd, hpos⟩ := oddPart_spec (n-1) (n-1) (by omega) (Nat.le_refl _)
    have hnodd : n % 2 = 1 := Nat.odd_iff.mp (hp.odd_of_ne_two (by omega))
    have hr : 1 ≤ (oddPart (n-1) (n-1)).1 := by
      by_contra h0
      have h0' : (oddPart (n-1) (n-1)).1 = 0 := by omega
      rw [h0', pow_zero, Nat.one_mul] at hdec
      have hdvd : 2 ∣ n - 1 := ⟨(n-1)/2, by omega⟩
      rw [hdec] at hdvd
      exact hodd hdvd
    have hall : (bases.any fun a =>
        is_witness n (oddPart (n-1) (n-1)).2 (oddPart (n-1) (n-1)).1 a) = false := by
      rw [List.any_eq_false]
      intro a ha
      obtain ⟨ha2, han⟩ := hb a ha
      rw [mr_not_witness n hp h5 (oddPart (n-1) (n-1)).2 (oddPart (n-1) (n-1)).1
        hdec hr a ha2 han]
      simp
    rw [hall]
    rfl

theorem miller_rabin_no_false_negatives_witness :
    Nat.Prime 5 ∧ (∀ a ∈ ([2, 3] : List Nat), 2 ≤ a ∧ a ≤ 5 - 2) ∧
    miller_rabin_test 5 [2, 3] = true :=
  ⟨by decide, by decide,
   miller_rabin_no_false_negatives 5 [2, 3] (by decide) (by decide)⟩

/-- C5: on a prime input the Pollard's rho strategy terminates (some fuel
makes both loops exit) and returns exactly [n]: Floyd's tortoise and
hare must meet, at which point d = gcd(0, n) = n, and n / n = 1 ends the
outer loop. -/
theorem pollards_rho_prime_returns_singleton (p : Nat) (hp : Nat.Prime p) :
    ∃ fi fo, pollards_rho_factorize (p : Int) fi fo = some [p] := by
  obtain ⟨fi, hfi⟩ := pollard_rho_prime p hp
  refine ⟨fi, 1, ?_⟩
  have hp2 := hp.two_le
  have hne : ¬ p ≤ 1 := by omega
  have hdiv : p / p = 1 := Nat.div_self (by omega)
  simp [pollards_rho_factorize, pollardsRhoOuter, hne, hfi, hdiv]

theorem pollards_rho_prime_returns_singleton_witness :
    Nat.Prime 5 ∧ ∃ fi fo, pollards_rho_factorize ((5 : Nat) : Int) fi fo = some [5] :=
  ⟨by decide, pollards_rho_prime_returns_singleton 5 (by decide)⟩

set_option maxRecDepth 8000

/-- C6 counterexample: the Baillie-PSW-style strategy does raise on a
valid input n ≥ 0.  The Mersenne number 2^1279 - 1 is odd, not divisible
by 3 or 5, and neither 5n^2+4 nor 5n^2-4 is a perfect square (they are
≡ 8 mod 11 resp. ≡ 2 mod 13, non-residues), so the code reaches
`max_divisor = int(math.sqrt(n))` in trial division with n far beyond
the float range and raises OverflowError (modelled as `none`), refuting
the claim that no strategy ever raises for n ≥ 0. -/
theorem baillie_psw_overflow_raises :
    is_prime_baillie_psw (2 ^ 1279 - 1) = none := by
  have h1 : is_perfect_square (5 * (2 ^ 1279 - 1) * (2 ^ 1279 - 1) + 4) = false :=
    is_perfect_square_eq_false_of_mod 11 (by omega) _ 8 (by decide) (by decide)
  have h2 : is_perfect_square (5 * (2 ^ 1279 - 1) * (2 ^ 1279 - 1) - 4) = false :=
    is_perfect_square_eq_false_of_mod 13 (by omega) _ 2 (by decide) (by decide)
  unfold is_prime_baillie_psw
  rw [if_neg (by decide : ¬ ((2:Nat) ^ 1279 - 1 < 2)),
    if_neg (by decide :
      ¬ ((2:Nat) ^ 1279 - 1 = 2 ∨ (2:Nat) ^ 1279 - 1 = 3 ∨ (2:Nat) ^ 1279 - 1 = 5)),
    if_neg (by decide : ¬ (((2:Nat) ^ 1279 - 1) % 2 = 0 ∨
      ((2:Nat) ^ 1279 - 1) % 3 = 0 ∨ ((2:Nat) ^ 1279 - 1) % 5 = 0)),
    h1, h2]
  rw [if_neg (by decide : ¬ ((false || false) = true))]
  unfold is_prime_trial_division
  rw [if_neg (by decide : ¬ ((2:Nat) ^ 1279 - 1 < 2)),
    if_neg (by decide : ¬ ((2:Nat) ^ 1279 - 1 = 2 ∨ (2:Nat) ^ 1279 - 1 = 3)),
    if_neg (by decide :
      ¬ (((2:Nat) ^ 1279 - 1) % 2 = 0 ∨ ((2:Nat) ^ 1279 - 1) % 3 = 0)),
    if_pos (by decide : floatOverflowBound ≤ (2:Nat) ^ 1279 - 1)]

/-- C6 (amended): every strategy gives false on n ≤ 1 and true on n = 2
(any drawn bases); Miller-Rabin and the AKS delegate are total Bool
functions over all n ≥ 0, but the Baillie-PSW-style strategy is total
only below the float overflow bound: the only inputs it ever answers
with a raise (`none`, the OverflowError from `int(math.sqrt(n))`) lie at
or beyond `2^1024 - 2^970`. -/
theorem primality_boundary (n : Nat) (bases : List Nat) (hn : n ≤ 1) :
    (miller_rabin_test n bases = false ∧ is_prime_baillie_psw n = some false ∧
     is_prime_aks n = false) ∧
    (miller_rabin_test 2 bases = true ∧ is_prime_baillie_psw 2 = some true ∧
     is_prime_aks 2 = true) ∧
    (∀ m, is_prime_baillie_psw m = none → floatOverflowBound ≤ m) := by
  refine ⟨⟨?_, ?_, ?_⟩, ⟨?_, ?_, ?_⟩, ?_⟩
  · unfold miller_rabin_test
    rw [if_pos hn]
  · interval_cases n
    · decide
    · decide
  · have hnp : ¬ Nat.Prime n := fun hp => by have := hp.two_le; omega
    simp [is_prime_aks, hnp]
  · unfold miller_rabin_test
    rw [if_neg (by omega), if_pos (by omega)]
  · decide
  · decide
  · intro m hm
    unfold is_prime_baillie_psw at hm
    split_ifs at hm
    unfold is_prime_trial_division at hm
    split_ifs at hm with d1 d2 d3
    exact d3

theorem primality_boundary_witness :
    (1 : Nat) ≤ 1 ∧
    ((miller_rabin_test 1 [] = false ∧ is_prime_baillie_psw 1 = some false ∧
      is_prime_aks 1 = false) ∧
     (miller_rabin_test 2 [] = true ∧ is_prime_baillie_psw 2 = some true ∧
      is_prime_aks 2 = true) ∧
     (∀ m, is_prime_baillie_psw m = none → floatOverflowBound ≤ m)) :=
  ⟨by decide, primality_boundary 1 [] (by decide)⟩

/-- C7: past the small-prime and 2/3/5-divisibility checks, the
Baillie-PSW-style strategy returns false exactly when 5n^2+4 or 5n^2-4
is a perfect square, and otherwise returns the result of the 6k±1 wheel
trial division; the perfect-square test is isqrt(m)^2 == m. -/
theorem baillie_psw_structure (n : Nat) (h5 : 5 < n)
    (h2 : n % 2 ≠ 0) (h3 : n % 3 ≠ 0) (hd5 : n % 5 ≠ 0) :
    ((is_perfect_square (5*n*n + 4) || is_perfect_square (5*n*n - 4)) = true →
       is_prime_baillie_psw n = some false) ∧
    ((is_perfect_square (5*n*n + 4) || is_perfect_square (5*n*n - 4)) = false →
       is_prime_baillie_psw n = is_prime_trial_division n) ∧
    (∀ m, is_perfect_square m = true ↔ isqrt m * isqrt m = m) := by
  have hb : is_prime_baillie_psw n =
      (if is_perfect_square (5*n*n + 4) || is_perfect_square (5*n*n - 4) then some false
       else is_prime_trial_division n) := by
    unfold is_prime_baillie_psw
    rw [if_neg (show ¬ n < 2 by omega), if_neg (show ¬ (n = 2 ∨ n = 3 ∨ n = 5) by omega),
      if_neg (show ¬ (n % 2 = 0 ∨ n % 3 = 0 ∨ n % 5 = 0) by omega)]
  refine ⟨?_, ?_, ?_⟩
  · intro hsq
    rw [hb, hsq]
    rfl
  · intro hsq
    rw [hb, hsq]
    rfl
  · intro m
    simp [is_perfect_square]

theorem baillie_psw_structure_witness :
    5 < 13 ∧
    (is_perfect_square (5*13*13 + 4) || is_perfect_square (5*13*13 - 4)) = true ∧
    is_prime_baillie_psw 13 = some false :=
  ⟨by decide, by decide,
   (baillie_psw_structure 13 (by decide) (by decide) (by decide) (by decide)).1 (by decide)⟩

/-- C8: any strategy code other than 1 or 2 (factoring) resp. 1, 2 or 3
(primality) selects no strategy function: the dispatcher reports the
error and returns None, so no factorization or primality computation can
be run. -/
theorem invalid_strategy_rejected (m : Int) :
    (m ≠ 1 → m ≠ 2 → get_factor_method m = none) ∧
    (m ≠ 1 → m ≠ 2 → m ≠ 3 → get_prime_check_method m = none) := by
  constructor
  · intro h1 h2
    simp [get_factor_method, h1, h2]
  · intro h1 h2 h3
    simp [get_prime_check_method, h1, h2, h3]

theorem invalid_strategy_rejected_witness :
    get_factor_method 7 = none ∧ get_prime_check_method 7 = none :=
  ⟨(invalid_strategy_rejected 7).1 (by decide) (by decide),
   (invalid_strategy_rejected 7).2 (by decide) (by decide) (by decide)⟩

/-- C9 counterexample: on n = -1 the brute-force strategy raises instead
of returning: `int(n**0.5)` applies `int()` to a complex value and
raises `TypeError` (modelled as `none`), refuting the claim that both
strategies return an empty or trivial result without crashing for every
n ≤ 1. -/
theorem brute_force_negative_raises : factorize_brute_force (-1) = none := by
  decide

/-- C9 amended: for every n ≤ 1 Pollard's rho returns the empty list
(with any fuels), and brute force returns the empty list for 0 ≤ n ≤ 1
but raises TypeError (modelled as `none`) for n < 0. -/
theorem trivial_input_behavior (n : Int) (hn : n ≤ 1) :
    (∀ fi fo, pollards_rho_factorize n fi fo = some []) ∧
    (0 ≤ n → factorize_brute_force n = some []) ∧
    (n < 0 → factorize_brute_force n = none) := by
  refine ⟨?_, ?_, ?_⟩
  · intro fi fo
    show pollardsRhoOuter fi fo n.toNat = some []
    exact pollardsRhoOuter_of_le_one fi fo n.toNat (by omega)
  · intro h0
    have h01 : n = 0 ∨ n = 1 := by omega
    rcases h01 with h | h <;> subst h <;> decide
  · intro hneg
    simp [factorize_brute_force, hneg]

theorem trivial_input_behavior_witness :
    (0 : Int) ≤ 1 ∧ pollards_rho_factorize 0 3 3 = some [] ∧
    factorize_brute_force 0 = some [] :=
  ⟨by decide, (trivial_input_behavior 0 (by decide)).1 3 3,
   (trivial_input_behavior 0 (by decide)).2.1 (by decide)⟩

/-- C10: the Pollard's rho strategy consults no randomness: its output is
a function of n alone.  In the embedding the only extra parameters are
the loop fuels, and any two runs that return a list return the same
list. -/
theorem pollards_rho_deterministic (n : Int) (fi fo fi' fo' : Nat) (l l' : List Nat)
    (h : pollards_rho_factorize n fi fo = some l)
    (h' : pollards_rho_factorize n fi' fo' = some l') : l = l' :=
  pollardsRhoOuter_det fo fo' fi fi' n.toNat l l' h h'

theorem pollards_rho_deterministic_witness :
    pollards_rho_factorize 6 5 3 = some [3, 2] ∧
    pollards_rho_factorize 6 9 4 = some [3, 2] ∧
    ([3, 2] : List Nat) = [3, 2] :=
  ⟨by decide, by decide,
   pollards_rho_deterministic 6 5 3 9 4 [3, 2] [3, 2] (by decide) (by decide)⟩
